import Mathlib

/-!
Verification development for the criptocap repository: a shallow embedding of
the real-time price synchronization engine (streaming feed client in
`src/hooks/useCryptoPrices.ts`, durable cache in `src/services/cryptoCache.ts`,
and the merge/history logic in `src/components/CryptoList.tsx`), together with
theorems settling the specification claims about it.
-/

namespace CriptoCap

/-! ## JavaScript value model

Feed prices travel as strings and are parsed with `parseFloat`, which can
produce `NaN`.  We model a JavaScript number as either `nan` or a rational,
and a nullable number (`number | null` / `number | undefined`) as
`Option JsNum`.  Truthiness follows JavaScript: `null`/`undefined`, `0` and
`NaN` are falsy. -/

inductive JsNum where
  | nan : JsNum
  | num : ℚ → JsNum
deriving DecidableEq, Repr

/-- JavaScript strict equality `===` on numbers: `NaN` is not equal to
anything, including itself. -/
def jsEq : JsNum → JsNum → Bool
  | .num a, .num b => a == b
  | _, _ => false

/-- Truthiness of a bare JavaScript number: `0` and `NaN` are falsy. -/
def truthyNum : JsNum → Bool
  | .nan => false
  | .num q => q != 0

/-- Truthiness of a `number | null` value. -/
def jsTruthy : Option JsNum → Bool
  | none => false
  | some n => truthyNum n

/-- The rational carried by a truthy `number | null` value, if any. -/
def truthyVal : Option JsNum → Option ℚ
  | some (.num q) => if q = 0 then none else some q
  | _ => none

/-- Numeric value of a digit character. -/
def digitVal (c : Char) : ℕ := c.toNat - 48

/-- Model of the JavaScript builtin `parseFloat` on the inputs this program
feeds it: an optional sign, then decimal digits with an optional fractional
part; any trailing garbage is ignored, and the result is `NaN` when no digit
is found (so `parseFloat "null"` and `parseFloat "undefined"` are `NaN`). -/
def parseFloat (s : String) : JsNum :=
  let cs := s.toList
  let signAndRest : ℚ × List Char :=
    match cs with
    | '-' :: rest => (-1, rest)
    | '+' :: rest => (1, rest)
    | _ => (1, cs)
  let sign := signAndRest.1
  let body := signAndRest.2
  let intDigits := body.takeWhile Char.isDigit
  let afterInt := body.dropWhile Char.isDigit
  let fracDigits : List Char :=
    match afterInt with
    | '.' :: rest => rest.takeWhile Char.isDigit
    | _ => []
  if intDigits.isEmpty && fracDigits.isEmpty then .nan
  else
    let intVal : ℚ := intDigits.foldl (fun a c => 10 * a + (digitVal c : ℚ)) 0
    let fracVal : ℚ := fracDigits.foldr (fun c a => ((digitVal c : ℚ) + a) / 10) 0
    .num (sign * (intVal + fracVal))

/-! ## Durable price cache (`src/services/cryptoCache.ts`)

The IndexedDB `prices` object store is created with `keyPath: 'id'`
(`cryptoCache.ts` line 36), so it holds at most one record per asset
identifier.  We model the store as a list of records with `put` acting as
replace-by-key-or-append, exactly the IndexedDB `objectStore.put` semantics. -/

structure CachedPrice where
  id : String
  price : ℚ
  timestamp : ℤ
deriving DecidableEq, Repr

/-- IndexedDB `objectStore.put` on a store with `keyPath: 'id'`: overwrite the
record with the same key if present, otherwise append. -/
def idbPutPrice (store : List CachedPrice) (r : CachedPrice) : List CachedPrice :=
  if store.any (fun x => x.id == r.id) then
    store.map (fun x => if x.id == r.id then r else x)
  else
    store ++ [r]

/-- `savePrice(id, price)` (`cryptoCache.ts` lines 48-73): `put` a record
`{id, price, timestamp: Date.now()}` keyed by `id`. -/
def savePrice (store : List CachedPrice) (id : String) (price : ℚ) (now : ℤ) :
    List CachedPrice :=
  idbPutPrice store { id := id, price := price, timestamp := now }

/-- `getAllPrices()` (`cryptoCache.ts` lines 95-113): every record of the
store. -/
def getAllPrices (store : List CachedPrice) : List CachedPrice := store

/-- `deletePrice(id)` (`cryptoCache.ts` lines 210-228): delete the record
keyed by `id`. -/
def deletePrice (store : List CachedPrice) (id : String) : List CachedPrice :=
  store.filter (fun r => r.id != id)

/-- The samples the store holds for one asset. -/
def samplesFor (store : List CachedPrice) (id : String) : List CachedPrice :=
  store.filter (fun r => r.id == id)

example : samplesFor (savePrice (savePrice [] "bitcoin" 1 100) "bitcoin" 2 200) "bitcoin"
    = [⟨"bitcoin", 2, 200⟩] := by decide

example : parseFloat "null" = .nan := by decide

example : parseFloat "undefined" = .nan := by decide

/-! ## Streaming feed client: message processing (`src/hooks/useCryptoPrices.ts`)

Inbound frames are JSON objects mapping vendor asset identifier to a raw
value.  A raw JSON value for this feed is `null` or a string; we also keep a
constructor for a key mapped to JavaScript `undefined` so that the handler's
`value === undefined` test is represented.  A message is the key/value list in
`Object.keys` iteration order. -/

inductive RawVal where
  | vNull : RawVal
  | vUndef : RawVal
  | vStr : String → RawVal
deriving DecidableEq, Repr

abbrev FeedMsg := List (String × RawVal)

/-- `ASSET_ID_MAP` (`useCryptoPrices.ts` lines 470-472) applied as
`ASSET_ID_MAP[key] || key`: the one alias `binance-coin → binancecoin`,
unmapped identifiers pass through. -/
def normalizeId (k : String) : String :=
  if k == "binance-coin" then "binancecoin" else k

/-- The handler's invalid-value test (`useCryptoPrices.ts` lines 543-548):
`value === null || value === undefined || value === "null" || value === "undefined"`. -/
def isInvalidRaw : RawVal → Bool
  | .vNull => true
  | .vUndef => true
  | .vStr s => s == "null" || s == "undefined"

/-- Pointwise update of a string-keyed counter map (`errorCountRef.current`). -/
def setCount (f : String → ℕ) (k : String) (v : ℕ) : String → ℕ :=
  fun x => if x == k then v else f x

/-- Pointwise update of the `prices` record (`{...prevPrices, ...normalizedData}`
applied entry by entry). -/
def setPrice (f : String → Option String) (kv : String × String) :
    String → Option String :=
  fun x => if x == kv.1 then some kv.2 else f x

/-- Accumulator of the `Object.keys(data).forEach` loop
(`useCryptoPrices.ts` lines 535-575): the mutable error-count map, the
`normalizedData` object (as an entry list) and the `invalidAssetsList` array. -/
structure MsgAcc where
  errorCount : String → ℕ
  normalized : List (String × String)
  newlyInvalid : List String

/-- The invalid-value branch of the loop body (`useCryptoPrices.ts` lines
549-561): increment the asset's tally; once it has reached 3, push the
identifier onto `invalidAssetsList`; forward no price. -/
def invalidTally (acc : MsgAcc) (key : String) : MsgAcc :=
  let c := acc.errorCount key + 1
  { acc with
    errorCount := setCount acc.errorCount key c
    newlyInvalid := if 3 ≤ c then acc.newlyInvalid ++ [key] else acc.newlyInvalid }

/-- One iteration of the `forEach` loop (`useCryptoPrices.ts` lines 538-575):
normalize the key, then either tally an invalid value or reset the tally and
forward the value.  The `savePrice` cache write is a fire-and-forget side
effect on the separate cache state and is not part of the feed state. -/
def processEntry (acc : MsgAcc) (e : String × RawVal) : MsgAcc :=
  let key := normalizeId e.1
  match e.2 with
  | .vNull => invalidTally acc key
  | .vUndef => invalidTally acc key
  | .vStr s =>
      if s == "null" || s == "undefined" then invalidTally acc key
      else
        { acc with
          errorCount := setCount acc.errorCount key 0
          normalized := acc.normalized ++ [(key, s)] }

/-- Insertion into a JavaScript `Set` materialized as an array in insertion
order: keep the array if the element is already present, else push it. -/
def insertUnique (l : List String) (x : String) : List String :=
  if x ∈ l then l else l ++ [x]

/-- `[...new Set(l)]`: deduplicate keeping first occurrences. -/
def jsSetOf (l : List String) : List String :=
  l.foldl insertUnique []

/-- The feed client state observable by subscribers: the per-asset
consecutive-invalid tally (`errorCountRef`), the `invalidAssets` state and the
accumulated `prices` state. -/
structure FeedData where
  errorCount : String → ℕ
  invalidAssets : List String
  prices : String → Option String

/-- The whole `ws.onmessage` handler for one successfully parsed frame
(`useCryptoPrices.ts` lines 530-590): run the loop over the entries, then
`setInvalidAssets(prev => [...new Set([...prev, ...invalidAssetsList])])`
when the list is nonempty, and merge the forwarded values into `prices`. -/
def processMessage (st : FeedData) (msg : FeedMsg) : FeedData :=
  let acc := msg.foldl processEntry ⟨st.errorCount, [], []⟩
  { errorCount := acc.errorCount
    invalidAssets :=
      if acc.newlyInvalid = [] then st.invalidAssets
      else jsSetOf (st.invalidAssets ++ acc.newlyInvalid)
    prices := acc.normalized.foldl setPrice st.prices }

/-- The hook's initial state (`useCryptoPrices.ts` lines 488-494): empty
prices, no invalid assets, all tallies zero. -/
def initialFeedData : FeedData :=
  { errorCount := fun _ => 0, invalidAssets := [], prices := fun _ => none }

/-- The feed state after a sequence of frames has been delivered. -/
def runFeed (msgs : List FeedMsg) : FeedData :=
  msgs.foldl processMessage initialFeedData

/-- The raw values a given (normalized) asset identifier receives in one
message, in processing order. -/
def occsInMsg (a : String) (msg : FeedMsg) : List RawVal :=
  (msg.filter (fun e => normalizeId e.1 == a)).map Prod.snd

/-- The raw values a given asset identifier receives across a sequence of
messages. -/
def occs (a : String) (msgs : List FeedMsg) : List RawVal :=
  msgs.foldr (fun m r => occsInMsg a m ++ r) []

/-! ### Abstract per-asset tally automaton

For one asset, the handler behaves like a small automaton over that asset's
raw-value occurrences: the first component is the consecutive-invalid tally,
the second records whether the tally has ever reached 3. -/

/-- One raw value applied to the abstract (tally, reported) pair. -/
def absStep (p : ℕ × Bool) (v : RawVal) : ℕ × Bool :=
  if isInvalidRaw v then (p.1 + 1, p.2 || decide (3 ≤ p.1 + 1)) else (0, p.2)

/-- The abstract automaton run over a value sequence. -/
def absRun (vs : List RawVal) (c : ℕ) (b : Bool) : ℕ × Bool :=
  vs.foldl absStep (c, b)

theorem absRun_nil (c : ℕ) (b : Bool) : absRun [] c b = (c, b) := rfl

theorem absRun_cons (v : RawVal) (vs : List RawVal) (c : ℕ) (b : Bool) :
    absRun (v :: vs) c b = absRun vs (absStep (c, b) v).1 (absStep (c, b) v).2 := rfl

/-- The reported flag only accumulates: seeding it with `b` just disjoins `b`
onto the result, and the tally ignores the flag. -/
theorem absRun_seed (vs : List RawVal) : ∀ c : ℕ, ∀ b : Bool,
    absRun vs c b = ((absRun vs c false).1, b || (absRun vs c false).2) := by
  induction vs with
  | nil => intro c b; simp [absRun_nil]
  | cons v vs ih =>
      intro c b
      rw [absRun_cons, absRun_cons (b := false)]
      cases hv : isInvalidRaw v
      · simp only [absStep, hv, Bool.false_eq_true, if_false]
        exact ih 0 b
      · simp only [absStep, hv, if_true, Bool.false_or]
        rw [ih (c + 1) (b || decide (3 ≤ c + 1)), ih (c + 1) (decide (3 ≤ c + 1))]
        simp [Bool.or_assoc]

theorem absRun_append (u w : List RawVal) (c : ℕ) (b : Bool) :
    absRun (u ++ w) c b = absRun w (absRun u c b).1 (absRun u c b).2 := by
  simp [absRun, List.foldl_append]

/-! ### The entry loop tracks the abstract automaton -/

theorem processEntry_errorCount_eq (acc : MsgAcc) (e : String × RawVal) (a : String)
    (h : normalizeId e.1 = a) :
    (processEntry acc e).errorCount a = (absStep (acc.errorCount a, false) e.2).1 := by
  rcases e with ⟨k, v⟩
  simp only at h
  cases v with
  | vNull => simp [processEntry, invalidTally, setCount, absStep, isInvalidRaw, h]
  | vUndef => simp [processEntry, invalidTally, setCount, absStep, isInvalidRaw, h]
  | vStr s =>
      by_cases hs : (s == "null" || s == "undefined") = true
      · simp [processEntry, invalidTally, setCount, absStep, isInvalidRaw, h, hs]
      · simp [processEntry, setCount, absStep, isInvalidRaw, h, hs]

theorem processEntry_errorCount_ne (acc : MsgAcc) (e : String × RawVal) (a : String)
    (h : ¬ normalizeId e.1 = a) :
    (processEntry acc e).errorCount a = acc.errorCount a := by
  rcases e with ⟨k, v⟩
  simp only at h
  have h' : ¬ a = normalizeId k := fun hh => h hh.symm
  cases v with
  | vNull => simp [processEntry, invalidTally, setCount, h']
  | vUndef => simp [processEntry, invalidTally, setCount, h']
  | vStr s =>
      by_cases hs : (s == "null" || s == "undefined") = true
      · simp [processEntry, invalidTally, setCount, h', hs]
      · simp [processEntry, setCount, h', hs]

theorem processEntry_newlyInvalid_eq (acc : MsgAcc) (e : String × RawVal) (a : String)
    (h : normalizeId e.1 = a) :
    (a ∈ (processEntry acc e).newlyInvalid ↔
      a ∈ acc.newlyInvalid ∨ (absStep (acc.errorCount a, false) e.2).2 = true) := by
  rcases e with ⟨k, v⟩
  simp only at h
  cases v with
  | vNull =>
      by_cases h3 : 3 ≤ acc.errorCount a + 1
      · simp [processEntry, invalidTally, absStep, isInvalidRaw, h, h3]
      · simp [processEntry, invalidTally, absStep, isInvalidRaw, h, h3]
  | vUndef =>
      by_cases h3 : 3 ≤ acc.errorCount a + 1
      · simp [processEntry, invalidTally, absStep, isInvalidRaw, h, h3]
      · simp [processEntry, invalidTally, absStep, isInvalidRaw, h, h3]
  | vStr s =>
      by_cases hs : (s == "null" || s == "undefined") = true
      · by_cases h3 : 3 ≤ acc.errorCount a + 1
        · simp [processEntry, invalidTally, absStep, isInvalidRaw, h, hs, h3]
        · simp [processEntry, invalidTally, absStep, isInvalidRaw, h, hs, h3]
      · simp [processEntry, absStep, isInvalidRaw, h, hs]

theorem mem_append_singleton_ne {a y : String} {l : List String} (h : ¬ y = a) :
    (a ∈ l ++ [y] ↔ a ∈ l) := by
  simp only [List.mem_append, List.mem_singleton]
  constructor
  · rintro (ha | ha)
    · exact ha
    · exact absurd ha.symm h
  · exact Or.inl

theorem processEntry_newlyInvalid_ne (acc : MsgAcc) (e : String × RawVal) (a : String)
    (h : ¬ normalizeId e.1 = a) :
    (a ∈ (processEntry acc e).newlyInvalid ↔ a ∈ acc.newlyInvalid) := by
  rcases e with ⟨k, v⟩
  simp only at h
  cases v with
  | vNull =>
      by_cases h3 : 3 ≤ acc.errorCount (normalizeId k) + 1
      · simp [processEntry, invalidTally, h3, mem_append_singleton_ne h]
      · simp [processEntry, invalidTally, h3]
  | vUndef =>
      by_cases h3 : 3 ≤ acc.errorCount (normalizeId k) + 1
      · simp [processEntry, invalidTally, h3, mem_append_singleton_ne h]
      · simp [processEntry, invalidTally, h3]
  | vStr s =>
      by_cases hs : (s == "null" || s == "undefined") = true
      · by_cases h3 : 3 ≤ acc.errorCount (normalizeId k) + 1
        · simp [processEntry, invalidTally, hs, h3, mem_append_singleton_ne h]
        · simp [processEntry, invalidTally, hs, h3]
      · simp [processEntry, hs]

theorem occsInMsg_nil (a : String) : occsInMsg a [] = [] := rfl

theorem occsInMsg_cons (a : String) (e : String × RawVal) (msg : FeedMsg) :
    occsInMsg a (e :: msg) =
      if normalizeId e.1 = a then e.2 :: occsInMsg a msg else occsInMsg a msg := by
  by_cases h : normalizeId e.1 = a
  · simp [occsInMsg, List.filter_cons, h]
  · simp [occsInMsg, List.filter_cons, h]

/-- Folding the `forEach` body over a message advances, for every asset, the
tally and the pushed-invalid flag exactly as the abstract automaton does on
that asset's occurrences in the message. -/
theorem foldl_processEntry_spec (msg : FeedMsg) (a : String) : ∀ acc : MsgAcc,
    ((msg.foldl processEntry acc).errorCount a
        = (absRun (occsInMsg a msg) (acc.errorCount a) false).1)
    ∧ (a ∈ (msg.foldl processEntry acc).newlyInvalid ↔
        (a ∈ acc.newlyInvalid ∨
          (absRun (occsInMsg a msg) (acc.errorCount a) false).2 = true)) := by
  induction msg with
  | nil => intro acc; simp [occsInMsg_nil, absRun_nil]
  | cons e msg ih =>
      intro acc
      rw [List.foldl_cons]
      rcases ih (processEntry acc e) with ⟨ihc, ihm⟩
      by_cases h : normalizeId e.1 = a
      · rw [occsInMsg_cons]
        simp only [h, if_pos]
        constructor
        · rw [ihc, processEntry_errorCount_eq acc e a h, absRun_cons]
          rw [absRun_seed (occsInMsg a msg) (absStep (acc.errorCount a, false) e.2).1
            (absStep (acc.errorCount a, false) e.2).2]
        · rw [ihm, processEntry_errorCount_eq acc e a h,
            processEntry_newlyInvalid_eq acc e a h, absRun_cons]
          rw [absRun_seed (occsInMsg a msg) (absStep (acc.errorCount a, false) e.2).1
            (absStep (acc.errorCount a, false) e.2).2]
          simp only [Bool.or_eq_true]
          tauto
      · rw [occsInMsg_cons, if_neg h]
        constructor
        · rw [ihc, processEntry_errorCount_ne acc e a h]
        · rw [ihm, processEntry_newlyInvalid_ne acc e a h,
            processEntry_errorCount_ne acc e a h]

theorem mem_insertUnique (l : List String) (x y : String) :
    y ∈ insertUnique l x ↔ y ∈ l ∨ y = x := by
  unfold insertUnique
  by_cases hx : x ∈ l
  · rw [if_pos hx]
    constructor
    · exact Or.inl
    · rintro (hy | rfl)
      · exact hy
      · exact hx
  · rw [if_neg hx]
    simp [List.mem_append]

theorem nodup_insertUnique (l : List String) (x : String) (h : l.Nodup) :
    (insertUnique l x).Nodup := by
  unfold insertUnique
  by_cases hx : x ∈ l
  · rwa [if_pos hx]
  · rw [if_neg hx]
    exact ((List.perm_append_singleton x l).nodup_iff).mpr (List.nodup_cons.mpr ⟨hx, h⟩)

theorem mem_foldl_insertUnique (l : List String) (y : String) : ∀ acc : List String,
    y ∈ l.foldl insertUnique acc ↔ y ∈ acc ∨ y ∈ l := by
  induction l with
  | nil => intro acc; simp
  | cons x l ih =>
      intro acc
      rw [List.foldl_cons, ih (insertUnique acc x), mem_insertUnique]
      simp only [List.mem_cons]
      tauto

theorem nodup_foldl_insertUnique (l : List String) : ∀ acc : List String,
    acc.Nodup → (l.foldl insertUnique acc).Nodup := by
  induction l with
  | nil => intro acc h; exact h
  | cons x l ih => intro acc h; exact ih (insertUnique acc x) (nodup_insertUnique acc x h)

theorem mem_jsSetOf (l : List String) (y : String) : y ∈ jsSetOf l ↔ y ∈ l := by
  unfold jsSetOf
  rw [mem_foldl_insertUnique]
  simp

theorem nodup_jsSetOf (l : List String) : (jsSetOf l).Nodup :=
  nodup_foldl_insertUnique l [] List.nodup_nil

/-- One frame advances the per-asset tally and invalid-report exactly as the
abstract automaton run over that asset's occurrences in the frame. -/
theorem processMessage_spec (st : FeedData) (msg : FeedMsg) (a : String) :
    ((processMessage st msg).errorCount a
        = (absRun (occsInMsg a msg) (st.errorCount a) false).1)
    ∧ (a ∈ (processMessage st msg).invalidAssets ↔
        (a ∈ st.invalidAssets ∨
          (absRun (occsInMsg a msg) (st.errorCount a) false).2 = true)) := by
  rcases foldl_processEntry_spec msg a ⟨st.errorCount, [], []⟩ with ⟨hc, hm⟩
  simp only [List.not_mem_nil, false_or] at hm
  constructor
  · exact hc
  · unfold processMessage
    by_cases hni : (msg.foldl processEntry ⟨st.errorCount, [], []⟩).newlyInvalid = []
    · simp only [hni, if_pos]
      have : ¬ (absRun (occsInMsg a msg) (st.errorCount a) false).2 = true := by
        rw [← hm, hni]
        simp
      tauto
    · simp only [hni, if_neg, not_false_iff, mem_jsSetOf, List.mem_append]
      rw [hm]

/-- A frame never removes an asset from `invalidAssets`, and keeps the list
duplicate-free. -/
theorem processMessage_invalid_mono (st : FeedData) (msg : FeedMsg) :
    (∀ a, a ∈ st.invalidAssets → a ∈ (processMessage st msg).invalidAssets)
    ∧ (st.invalidAssets.Nodup → (processMessage st msg).invalidAssets.Nodup) := by
  unfold processMessage
  by_cases hni : (msg.foldl processEntry ⟨st.errorCount, [], []⟩).newlyInvalid = []
  · simp only [hni, if_pos]
    exact ⟨fun a ha => ha, fun h => h⟩
  · simp only [hni, if_neg, not_false_iff]
    constructor
    · intro a ha
      rw [mem_jsSetOf]
      exact List.mem_append_left _ ha
    · intro _
      exact nodup_jsSetOf _

/-- Running a message sequence from any state advances every asset's tally
and invalid-report like the abstract automaton over that asset's occurrences
across the sequence. -/
theorem runFeedFrom_spec (msgs : List FeedMsg) (a : String) : ∀ st : FeedData,
    ((msgs.foldl processMessage st).errorCount a
        = (absRun (occs a msgs) (st.errorCount a) false).1)
    ∧ (a ∈ (msgs.foldl processMessage st).invalidAssets ↔
        (a ∈ st.invalidAssets ∨
          (absRun (occs a msgs) (st.errorCount a) false).2 = true)) := by
  induction msgs with
  | nil => intro st; simp [occs, absRun_nil]
  | cons m ms ih =>
      intro st
      rw [List.foldl_cons]
      rcases ih (processMessage st m) with ⟨ihc, ihm⟩
      rcases processMessage_spec st m a with ⟨hc, hm⟩
      have hocc : occs a (m :: ms) = occsInMsg a m ++ occs a ms := rfl
      constructor
      · rw [ihc, hc, hocc, absRun_append,
          absRun_seed (occs a ms) (absRun (occsInMsg a m) (st.errorCount a) false).1
            (absRun (occsInMsg a m) (st.errorCount a) false).2]
      · rw [ihm, hc, hm, hocc, absRun_append,
          absRun_seed (occs a ms) (absRun (occsInMsg a m) (st.errorCount a) false).1
            (absRun (occsInMsg a m) (st.errorCount a) false).2]
        simp only [Bool.or_eq_true]
        tauto

/-! ### Three consecutive invalid values -/

/-- Recursive form of "starting with tally `c`, the tally reaches 3 somewhere
in `vs`". -/
def hitsThree : ℕ → List RawVal → Bool
  | _, [] => false
  | c, v :: vs =>
      if isInvalidRaw v then decide (3 ≤ c + 1) || hitsThree (c + 1) vs
      else hitsThree 0 vs

theorem absRun_snd_eq_hitsThree (vs : List RawVal) : ∀ c : ℕ,
    (absRun vs c false).2 = hitsThree c vs := by
  induction vs with
  | nil => intro c; rfl
  | cons v vs ih =>
      intro c
      rw [absRun_cons]
      cases hv : isInvalidRaw v
      · simp only [absStep, hv, Bool.false_eq_true, if_false, hitsThree]
        exact ih 0
      · simp only [absStep, hv, if_true, Bool.false_or, hitsThree]
        rw [absRun_seed vs (c + 1) (decide (3 ≤ c + 1)), ih (c + 1)]

/-- The spec-side property: the value sequence contains three consecutive
invalid values (hence a run of three or more with no valid value in
between). -/
def hasThreeConsecInvalid (vs : List RawVal) : Prop :=
  ∃ pre rest x y z, vs = pre ++ x :: y :: z :: rest ∧
    isInvalidRaw x = true ∧ isInvalidRaw y = true ∧ isInvalidRaw z = true

theorem hitsThree_of_decomp (x y z : RawVal) (hx : isInvalidRaw x = true)
    (hy : isInvalidRaw y = true) (hz : isInvalidRaw z = true) :
    ∀ pre : List RawVal, ∀ rest : List RawVal, ∀ c : ℕ,
      hitsThree c (pre ++ x :: y :: z :: rest) = true := by
  intro pre
  induction pre with
  | nil =>
      intro rest c
      simp only [List.nil_append, hitsThree, hx, hy, hz, if_true]
      have h3 : (3 : ℕ) ≤ c + 1 + 1 + 1 := by omega
      simp [h3]
  | cons p pre ih =>
      intro rest c
      rw [List.cons_append]
      cases hp : isInvalidRaw p
      · simp only [hitsThree, hp, Bool.false_eq_true, if_false]
        exact ih rest 0
      · simp only [hitsThree, hp, if_true]
        rw [ih rest (c + 1)]
        simp

theorem three_head_of_long_invalid (w : List RawVal) (hlen : 3 ≤ w.length)
    (hall : ∀ v ∈ w, isInvalidRaw v = true) :
    ∃ x y z t, w = x :: y :: z :: t ∧
      isInvalidRaw x = true ∧ isInvalidRaw y = true ∧ isInvalidRaw z = true := by
  match w, hlen with
  | x :: y :: z :: t, _ =>
      exact ⟨x, y, z, t, rfl, hall x (by simp), hall y (by simp), hall z (by simp)⟩

theorem decomp_of_hitsThree (vs : List RawVal) : ∀ c : ℕ, hitsThree c vs = true →
    (∃ w rest, vs = w ++ rest ∧ (∀ v ∈ w, isInvalidRaw v = true) ∧ 3 ≤ c + w.length)
    ∨ hasThreeConsecInvalid vs := by
  induction vs with
  | nil => intro c h; simp [hitsThree] at h
  | cons v vs ih =>
      intro c h
      cases hv : isInvalidRaw v
      · rw [hitsThree, hv] at h
        simp only [Bool.false_eq_true, if_false] at h
        rcases ih 0 h with ⟨w, rest, hvs, hall, hlen⟩ | hthree
        · right
          rcases three_head_of_long_invalid w (by omega) hall with
            ⟨x, y, z, t, hw, hx, hy, hz⟩
          exact ⟨[v], t ++ rest, x, y, z, by rw [hvs, hw]; simp, hx, hy, hz⟩
        · right
          rcases hthree with ⟨pre, rest, x, y, z, hvs, hx, hy, hz⟩
          exact ⟨v :: pre, rest, x, y, z, by rw [hvs]; rfl, hx, hy, hz⟩
      · rw [hitsThree, hv] at h
        simp only [if_true, Bool.or_eq_true, decide_eq_true_eq] at h
        rcases h with h3 | h
        · exact Or.inl ⟨[v], vs, rfl, by simpa using hv, by simpa using h3⟩
        · rcases ih (c + 1) h with ⟨w, rest, hvs, hall, hlen⟩ | hthree
          · left
            refine ⟨v :: w, rest, by rw [hvs]; rfl, ?_, by simpa using by omega⟩
            intro u hu
            rcases List.mem_cons.mp hu with rfl | hu
            · exact hv
            · exact hall u hu
          · right
            rcases hthree with ⟨pre, rest, x, y, z, hvs, hx, hy, hz⟩
            exact ⟨v :: pre, rest, x, y, z, by rw [hvs]; rfl, hx, hy, hz⟩

theorem hitsThree_iff_hasThreeConsecInvalid (vs : List RawVal) :
    hitsThree 0 vs = true ↔ hasThreeConsecInvalid vs := by
  constructor
  · intro h
    rcases decomp_of_hitsThree vs 0 h with ⟨w, rest, hvs, hall, hlen⟩ | hthree
    · rcases three_head_of_long_invalid w (by omega) hall with ⟨x, y, z, t, hw, hx, hy, hz⟩
      exact ⟨[], t ++ rest, x, y, z, by rw [hvs, hw]; simp, hx, hy, hz⟩
    · exact hthree
  · rintro ⟨pre, rest, x, y, z, hvs, hx, hy, hz⟩
    rw [hvs]
    exact hitsThree_of_decomp x y z hx hy hz pre rest 0

theorem nodup_runFeedFrom (msgs : List FeedMsg) : ∀ st : FeedData,
    st.invalidAssets.Nodup → (msgs.foldl processMessage st).invalidAssets.Nodup := by
  induction msgs with
  | nil => intro st h; exact h
  | cons m ms ih =>
      intro st h
      exact ih (processMessage st m) ((processMessage_invalid_mono st m).2 h)

theorem absStep_fst_valid (p : ℕ × Bool) (v : RawVal) (hv : isInvalidRaw v = false) :
    (absStep p v).1 = 0 := by
  simp [absStep, hv]

/-- C3: an asset is reported invalid exactly when, at some point, it has
received three or more consecutive invalid values (null, undefined/absent, or
the literal strings "null"/"undefined") with no valid value in between; the
reported list never contains duplicates; and a valid value resets the asset's
consecutive-invalid tally to zero. -/
theorem invalid_iff_three_consecutive_invalid (msgs : List FeedMsg) (a : String) :
    (a ∈ (runFeed msgs).invalidAssets ↔ hasThreeConsecInvalid (occs a msgs))
    ∧ (runFeed msgs).invalidAssets.Nodup
    ∧ (∀ u v, occs a msgs = u ++ [v] → isInvalidRaw v = false →
        (runFeed msgs).errorCount a = 0) := by
  rcases runFeedFrom_spec msgs a initialFeedData with ⟨hc, hm⟩
  refine ⟨?_, ?_, ?_⟩
  · rw [runFeed, hm]
    show (a ∈ ([] : List String) ∨ _) ↔ _
    simp only [List.not_mem_nil, false_or]
    show (absRun (occs a msgs) 0 false).2 = true ↔ _
    rw [absRun_snd_eq_hitsThree, hitsThree_iff_hasThreeConsecInvalid]
  · exact nodup_runFeedFrom msgs initialFeedData List.nodup_nil
  · intro u v huv hv
    rw [runFeed, hc]
    show (absRun (occs a msgs) 0 false).1 = 0
    rw [huv, absRun_append]
    have : absRun [v] (absRun u 0 false).1 (absRun u 0 false).2
        = absStep ((absRun u 0 false).1, (absRun u 0 false).2) v := rfl
    rw [this, absStep_fst_valid _ v hv]

/-- Witness for C3: two invalid values, then a valid one, for `bitcoin`:
after the valid value the tally is back to zero. -/
theorem invalid_iff_three_consecutive_invalid_witness :
    (runFeed [[("bitcoin", RawVal.vNull)], [("bitcoin", RawVal.vNull)],
        [("bitcoin", RawVal.vStr "67000")]]).errorCount "bitcoin" = 0 :=
  (invalid_iff_three_consecutive_invalid
      [[("bitcoin", RawVal.vNull)], [("bitcoin", RawVal.vNull)],
        [("bitcoin", RawVal.vStr "67000")]] "bitcoin").2.2
    [RawVal.vNull, RawVal.vNull] (RawVal.vStr "67000") (by decide) (by decide)

/-- C9: the reported invalid-asset list is monotone: an identifier once
reported is still reported after any further message sequence (even one
delivering valid values for it); duplicate-freeness is preserved; and one
frame changes the list exactly by unioning in the identifiers newly pushed by
the entry loop. -/
theorem invalidAssets_monotone_union (st : FeedData) (msgs : List FeedMsg)
    (m : FeedMsg) (a : String) :
    (a ∈ st.invalidAssets → a ∈ (msgs.foldl processMessage st).invalidAssets)
    ∧ (st.invalidAssets.Nodup → (msgs.foldl processMessage st).invalidAssets.Nodup)
    ∧ (a ∈ (processMessage st m).invalidAssets ↔
        a ∈ st.invalidAssets ∨
          a ∈ (m.foldl processEntry ⟨st.errorCount, [], []⟩).newlyInvalid) := by
  refine ⟨?_, nodup_runFeedFrom msgs st, ?_⟩
  · intro ha
    exact ((runFeedFrom_spec msgs a st).2).mpr (Or.inl ha)
  · unfold processMessage
    by_cases hni : (m.foldl processEntry ⟨st.errorCount, [], []⟩).newlyInvalid = []
    · simp [hni]
    · simp only [hni, if_neg, not_false_iff, mem_jsSetOf, List.mem_append]

/-- Witness for C9: `dogecoin`, already reported invalid, stays reported after
a message that delivers a valid value for it. -/
theorem invalidAssets_monotone_union_witness :
    "dogecoin" ∈ (([[("dogecoin", RawVal.vStr "1")]] : List FeedMsg).foldl processMessage
      ⟨fun _ => 0, ["dogecoin"], fun _ => none⟩).invalidAssets :=
  (invalidAssets_monotone_union ⟨fun _ => 0, ["dogecoin"], fun _ => none⟩
    [[("dogecoin", RawVal.vStr "1")]] [] "dogecoin").1 (by decide)

/-- C1: two successive `recordPrice` calls for `bitcoin` on an empty cache
leave a single stored sample, not two.  The `prices` object store is keyed by
asset id (`keyPath: 'id'`), so `objectStore.put` in `savePrice` overwrites the
previous sample: the durable cache retains only the most recent sample per
asset, it does not keep a 10-sample window (CLAUDE.md documents a bound of 10
stored updates per asset). -/
theorem savePrice_retains_single_sample :
    samplesFor (savePrice (savePrice [] "bitcoin" 1 100) "bitcoin" 2 200) "bitcoin"
      = [⟨"bitcoin", 2, 200⟩]
    ∧ (samplesFor (savePrice (savePrice [] "bitcoin" 1 100) "bitcoin" 2 200) "bitcoin").length
      ≠ 2 := by
  constructor
  · decide
  · decide

/-! ## Streaming feed client: connection lifecycle (`src/hooks/useCryptoPrices.ts`)

The connect/reconnect effect (`useCryptoPrices.ts` lines 518-625) is embedded
as a step function over an explicit connection state, driven by the events
that can occur: the effect body running `connect()` on mount, the socket
callbacks (`onopen`, `onerror`, `onclose`), the 3000ms reconnect timer firing
(which runs `connect()` again), and the effect cleanup.  `connect()` may also
throw from the `WebSocket` constructor, hence the `ok` flag on the events that
invoke it.  Each step also reports its effects: the delays of reconnect
timers it creates and the number of `connect()` socket-creation attempts it
performs. -/

/-- The reconnect delay hard-coded in `setTimeout(..., 3000)`
(`useCryptoPrices.ts` line 606). -/
def reconnectDelayMs : ℕ := 3000

structure FeedConn where
  /-- The `isConnected` state. -/
  isConnected : Bool
  /-- The `error` state. -/
  error : Option String
  /-- The pending reconnect timer referenced by `reconnectTimeoutRef`, with
  its delay, if one is pending. -/
  timer : Option ℕ
  /-- Whether a socket exists whose handlers are installed and whose close
  event has not yet been delivered.  The cleanup only calls `close()`; it
  neither detaches `onclose` nor clears `wsRef`, so this stays true until the
  close event actually fires. -/
  socketLive : Bool
  /-- Whether the effect cleanup has run. -/
  unmounted : Bool
deriving DecidableEq, Repr

/-- Observable effects of one step. -/
structure StepFx where
  /-- Delays of the reconnect timers created by this step. -/
  scheduled : List ℕ
  /-- Number of `connect()` socket-creation attempts performed by this step. -/
  connects : ℕ
deriving DecidableEq, Repr

inductive FeedEv where
  /-- The effect body runs `connect()`; `ok` is false when `new WebSocket`
  throws. -/
  | mount (ok : Bool)
  /-- `ws.onopen` fires. -/
  | socketOpened
  /-- `ws.onerror` fires. -/
  | socketErrored
  /-- `ws.onclose` fires (network drop, or the close requested by the
  cleanup's `ws.close()` completing). -/
  | socketClosed
  /-- The pending reconnect timer fires and runs `connect()`; `ok` is false
  when `new WebSocket` throws. -/
  | timerFired (ok : Bool)
  /-- The effect cleanup runs: `clearTimeout` on the referenced timer and
  `ws.close()` on the current socket. -/
  | cleanupRun
deriving DecidableEq, Repr

/-- The body of `connect()` (`useCryptoPrices.ts` lines 519-612): on success a
socket is created with its handlers installed; when the constructor throws,
the `catch` block only sets the error message — no state transition, no
timer. -/
def connectCall (s : FeedConn) (ok : Bool) : FeedConn × StepFx :=
  if ok then ({ s with socketLive := true }, ⟨[], 1⟩)
  else ({ s with error := some "Erro ao criar conexão WebSocket" }, ⟨[], 1⟩)

/-- One event applied to the connection state, following the handlers in
`useCryptoPrices.ts`: `onopen` (lines 524-528), `onerror` (592-596),
`onclose` (598-607, scheduling one reconnect after 3000ms), the timer
callback (603-606, running `connect()` with the timer no longer pending),
and the cleanup (617-624). -/
def feedStep (s : FeedConn) : FeedEv → FeedConn × StepFx
  | .mount ok => connectCall s ok
  | .socketOpened => ({ s with isConnected := true, error := none }, ⟨[], 0⟩)
  | .socketErrored =>
      ({ s with isConnected := false, error := some "Erro na conexão WebSocket" }, ⟨[], 0⟩)
  | .socketClosed =>
      ({ s with
          isConnected := false, socketLive := false,
          timer := some reconnectDelayMs }, ⟨[reconnectDelayMs], 0⟩)
  | .timerFired ok => connectCall { s with timer := none } ok
  | .cleanupRun => ({ s with timer := none, unmounted := true }, ⟨[], 0⟩)

/-- Which events the environment can actually deliver in a state: socket
callbacks require a live socket (whose handlers are installed and whose close
event is still undelivered), the timer can only fire while pending, and mount
and cleanup each happen once per effect run. -/
def evAllowed (s : FeedConn) : FeedEv → Bool
  | .mount _ => !s.unmounted
  | .socketOpened => s.socketLive
  | .socketErrored => s.socketLive
  | .socketClosed => s.socketLive
  | .timerFired _ => s.timer.isSome
  | .cleanupRun => !s.unmounted

/-- A connected session just before teardown: socket live, no pending
timer. -/
def connectedSession : FeedConn :=
  { isConnected := true, error := none, timer := none, socketLive := true,
    unmounted := false }

/-- C2: teardown does cancel the pending timer and request the socket close
synchronously, but it does not guarantee that no further reconnect attempt is
made.  The cleanup (`useCryptoPrices.ts` lines 617-624) neither detaches
`ws.onclose` nor clears `wsRef`, so the close event produced by its own
`ws.close()` is still delivered to the handler, which schedules a fresh
3000ms reconnect timer; when that timer fires, `connect()` runs and opens a
new socket after shutdown.  This theorem evaluates the code on that failing
trace: cleanup, then the socket's close event, then the timer firing. -/
theorem reconnect_attempt_after_teardown :
    ((feedStep connectedSession .cleanupRun).1.unmounted = true
      ∧ (feedStep connectedSession .cleanupRun).1.timer = none)
    ∧ evAllowed (feedStep connectedSession .cleanupRun).1 .socketClosed = true
    ∧ (feedStep (feedStep connectedSession .cleanupRun).1 .socketClosed).2.scheduled
        = [reconnectDelayMs]
    ∧ evAllowed (feedStep (feedStep connectedSession .cleanupRun).1 .socketClosed).1
        (.timerFired true) = true
    ∧ (feedStep (feedStep connectedSession .cleanupRun).1 .socketClosed).1.unmounted
        = true
    ∧ (feedStep (feedStep (feedStep connectedSession .cleanupRun).1 .socketClosed).1
        (.timerFired true)).2.connects = 1
    ∧ (feedStep (feedStep (feedStep connectedSession .cleanupRun).1 .socketClosed).1
        (.timerFired true)).1.socketLive = true := by
  decide

/-- C5 counterexample: from the disconnected initial state, a throwing
`new WebSocket` reports the error but does not start the 3000ms retry timer —
the claim that it "starts the same 3000ms retry timer" is false on the code:
the `catch` block (`useCryptoPrices.ts` lines 608-611) only calls
`setError`. -/
theorem connect_throw_no_timer_counterexample :
    ¬ ((feedStep ⟨false, none, none, false, false⟩ (.mount false)).1.timer
          = some reconnectDelayMs
        ∨ (feedStep ⟨false, none, none, false, false⟩ (.mount false)).2.scheduled
          = [reconnectDelayMs]) := by
  decide

/-- C5 (amended): a connection-establishment exception reports an error state
without throwing to the caller and the client remains Disconnected, but no
retry timer is started and nothing is scheduled — whether `connect()` was
invoked from the effect mount or from a timer fire.  Recovery can only come
from a later close event. -/
theorem connect_throw_reports_error_no_retry (s : FeedConn)
    (h : s.isConnected = false) :
    ((feedStep s (.mount false)).1.error = some "Erro ao criar conexão WebSocket")
    ∧ (feedStep s (.mount false)).1.isConnected = false
    ∧ (feedStep s (.mount false)).1.timer = s.timer
    ∧ (feedStep s (.mount false)).2.scheduled = []
    ∧ ((feedStep s (.timerFired false)).1.error
        = some "Erro ao criar conexão WebSocket")
    ∧ (feedStep s (.timerFired false)).1.isConnected = false
    ∧ (feedStep s (.timerFired false)).1.timer = none
    ∧ (feedStep s (.timerFired false)).2.scheduled = [] := by
  simp [feedStep, connectCall, h]

/-- Witness for C5 (amended) at the disconnected initial state. -/
theorem connect_throw_reports_error_no_retry_witness :
    (feedStep ⟨false, none, none, false, false⟩ (.mount false)).1.error
      = some "Erro ao criar conexão WebSocket" :=
  (connect_throw_reports_error_no_retry ⟨false, none, none, false, false⟩ (by decide)).1

/-! ## In-memory rolling price history (`src/components/CryptoList.tsx`)

`CryptoList` keeps a per-asset `priceHistory` array.  At startup it rebuilds
each asset's history from the cached samples (group by id, sort ascending by
timestamp, `slice(-10)`, lines 86-115); on each live update it appends an
entry stamped `Date.now()` when the price changed and truncates with
`slice(-10)` (lines 146-183).  The `formattedTime` display string is a pure
function of the timestamp and is omitted from the embedding. -/

structure HistEntry where
  timestamp : ℤ
  price : JsNum
deriving DecidableEq, Repr

/-- `slice(-n)`: the last `n` elements. -/
def takeLast {α : Type} (n : ℕ) (l : List α) : List α :=
  l.drop (l.length - n)

/-- Insertion step of sorting by ascending timestamp, modelling the
comparator `(a, b) => a.timestamp - b.timestamp` of `Array.prototype.sort`. -/
def insertEntryByTime (e : HistEntry) : List HistEntry → List HistEntry
  | [] => [e]
  | x :: xs =>
      if e.timestamp ≤ x.timestamp then e :: x :: xs else x :: insertEntryByTime e xs

/-- Sorting the grouped cache entries by ascending timestamp
(`CryptoList.tsx` line 111). -/
def sortEntriesByTime : List HistEntry → List HistEntry
  | [] => []
  | x :: xs => insertEntryByTime x (sortEntriesByTime xs)

/-- The spec's ordering invariant: adjacent entries have non-decreasing
timestamps. -/
def histSorted (l : List HistEntry) : Prop :=
  List.Chain' (fun a b => a.timestamp ≤ b.timestamp) l

instance (l : List HistEntry) : Decidable (histSorted l) := by
  unfold histSorted
  infer_instance

/-- Startup rebuild of one asset's history from the cache
(`CryptoList.tsx` lines 86-115): collect that asset's cached samples in
store order, sort ascending by timestamp, keep the last 10. -/
def rebuildHistoryFor (cached : List CachedPrice) (a : String) : List HistEntry :=
  takeLast 10 (sortEntriesByTime
    ((cached.filter (fun c => c.id == a)).map
      (fun c => { timestamp := c.timestamp, price := JsNum.num c.price })))

/-- One asset's step of the live-update effect (`CryptoList.tsx` lines
159-176): skip when the parsed price strictly equals (`===`) the last
recorded entry's price, otherwise append `{timestamp := now, price}` and keep
the last 10. -/
def processPriceUpdate (hist : List HistEntry) (now : ℤ) (p : JsNum) :
    List HistEntry :=
  match hist.getLast? with
  | none => takeLast 10 (hist ++ [{ timestamp := now, price := p }])
  | some last =>
      if jsEq p last.price then hist
      else takeLast 10 (hist ++ [{ timestamp := now, price := p }])

/-- The per-asset histories reachable in a session: a startup rebuild from
arbitrary cache contents (at a wall-clock time not earlier than the cached
stamps), live updates at non-decreasing wall-clock times, idle waiting, and
the history wipe performed by invalidation cleanup or user deletion.  The
index carries the current wall-clock time. -/
inductive HistReach (a : String) : ℤ → List HistEntry → Prop where
  | boot (cached : List CachedPrice) (t : ℤ)
      (ht : ∀ e ∈ rebuildHistoryFor cached a, e.timestamp ≤ t) :
      HistReach a t (rebuildHistoryFor cached a)
  | live (t t' : ℤ) (h : List HistEntry) (p : JsNum)
      (hr : HistReach a t h) (hle : t ≤ t') :
      HistReach a t' (processPriceUpdate h t' p)
  | wait (t t' : ℤ) (h : List HistEntry) (hr : HistReach a t h) (hle : t ≤ t') :
      HistReach a t' h
  | wipe (t : ℤ) (h : List HistEntry) (hr : HistReach a t h) :
      HistReach a t []

theorem mem_of_getLast?_eq {α : Type} {l : List α} {a : α}
    (h : l.getLast? = some a) : a ∈ l := by
  have hm : a ∈ l.getLast? := by rw [Option.mem_def]; exact h
  rcases List.mem_getLast?_eq_getLast hm with ⟨hne, rfl⟩
  exact List.getLast_mem hne

theorem head?_insertEntryByTime (e : HistEntry) (l : List HistEntry) :
    (insertEntryByTime e l).head? = some e ∨ (insertEntryByTime e l).head? = l.head? := by
  cases l with
  | nil => exact Or.inl rfl
  | cons x xs =>
      unfold insertEntryByTime
      by_cases hle : e.timestamp ≤ x.timestamp
      · rw [if_pos hle]; exact Or.inl rfl
      · rw [if_neg hle]; exact Or.inr rfl

theorem histSorted_insertEntryByTime (e : HistEntry) (l : List HistEntry)
    (h : histSorted l) : histSorted (insertEntryByTime e l) := by
  induction l with
  | nil => simp [insertEntryByTime, histSorted]
  | cons x xs ih =>
      unfold insertEntryByTime
      by_cases hle : e.timestamp ≤ x.timestamp
      · rw [if_pos hle]
        exact List.chain'_cons.mpr ⟨hle, h⟩
      · rw [if_neg hle]
        have hx : x.timestamp ≤ e.timestamp := le_of_not_le hle
        have hxs : histSorted xs := h.tail
        refine List.chain'_cons'.mpr ⟨?_, ih hxs⟩
        intro y hy
        rcases head?_insertEntryByTime e xs with h1 | h1
        · rw [h1] at hy
          cases hy
          exact hx
        · rw [h1] at hy
          exact (List.chain'_cons'.mp h).1 y hy

theorem histSorted_sortEntriesByTime (l : List HistEntry) :
    histSorted (sortEntriesByTime l) := by
  induction l with
  | nil => simp [sortEntriesByTime, histSorted]
  | cons x xs ih => exact histSorted_insertEntryByTime x (sortEntriesByTime xs) ih

theorem histSorted_drop (l : List HistEntry) : ∀ n : ℕ, histSorted l →
    histSorted (l.drop n) := by
  intro n
  induction n with
  | zero => intro h; simpa [List.drop_zero] using h
  | succ n ih =>
      intro h
      rw [← List.tail_drop]
      exact (ih h).tail

theorem histSorted_takeLast (l : List HistEntry) (n : ℕ) (h : histSorted l) :
    histSorted (takeLast n l) :=
  histSorted_drop l (l.length - n) h

theorem length_takeLast {α : Type} (l : List α) (n : ℕ) :
    (takeLast n l).length ≤ n := by
  unfold takeLast
  rw [List.length_drop]
  omega

theorem mem_takeLast {α : Type} {l : List α} {n : ℕ} {x : α}
    (h : x ∈ takeLast n l) : x ∈ l :=
  List.drop_subset _ l h

theorem mem_insertEntryByTime (e y : HistEntry) (l : List HistEntry) :
    y ∈ insertEntryByTime e l ↔ y = e ∨ y ∈ l := by
  induction l with
  | nil => simp [insertEntryByTime]
  | cons x xs ih =>
      unfold insertEntryByTime
      by_cases hle : e.timestamp ≤ x.timestamp
      · rw [if_pos hle]
        simp
      · rw [if_neg hle]
        simp only [List.mem_cons, ih]
        tauto

theorem mem_sortEntriesByTime (y : HistEntry) (l : List HistEntry) :
    y ∈ sortEntriesByTime l ↔ y ∈ l := by
  induction l with
  | nil => simp [sortEntriesByTime]
  | cons x xs ih =>
      unfold sortEntriesByTime
      rw [mem_insertEntryByTime]
      simp only [List.mem_cons, ih]

theorem processPriceUpdate_of_getLast?_none {h : List HistEntry}
    (he : h.getLast? = none) (now : ℤ) (p : JsNum) :
    processPriceUpdate h now p = takeLast 10 (h ++ [{ timestamp := now, price := p }]) := by
  unfold processPriceUpdate
  rw [he]

theorem processPriceUpdate_of_getLast?_some {h : List HistEntry} {last : HistEntry}
    (he : h.getLast? = some last) (now : ℤ) (p : JsNum) :
    processPriceUpdate h now p =
      if jsEq p last.price then h
      else takeLast 10 (h ++ [{ timestamp := now, price := p }]) := by
  unfold processPriceUpdate
  rw [he]

/-- Appending a fresh entry stamped at the current time and truncating keeps
the invariant. -/
theorem append_entry_invariant (h : List HistEntry) (now : ℤ) (p : JsNum)
    (hs : histSorted h) (ht : ∀ e ∈ h, e.timestamp ≤ now) :
    (takeLast 10 (h ++ [{ timestamp := now, price := p }])).length ≤ 10
    ∧ histSorted (takeLast 10 (h ++ [{ timestamp := now, price := p }]))
    ∧ ∀ e ∈ takeLast 10 (h ++ [{ timestamp := now, price := p }]),
        e.timestamp ≤ now := by
  refine ⟨length_takeLast _ 10, ?_, ?_⟩
  · apply histSorted_takeLast
    apply List.chain'_append.mpr
    refine ⟨hs, by simp [histSorted], ?_⟩
    intro x hx y hy
    simp only [List.head?_cons, Option.mem_def, Option.some.injEq] at hy
    subst hy
    exact ht x (mem_of_getLast?_eq hx)
  · intro e he
    rcases List.mem_append.mp (mem_takeLast he) with he | he
    · exact ht e he
    · simp only [List.mem_singleton] at he
      subst he
      exact le_refl now

/-- Every reachable per-asset history is bounded by 10 entries, sorted
ascending by timestamp, and stamped no later than the current clock. -/
theorem histReach_invariant {a : String} {t : ℤ} {h : List HistEntry}
    (hr : HistReach a t h) :
    h.length ≤ 10 ∧ histSorted h ∧ ∀ e ∈ h, e.timestamp ≤ t := by
  induction hr with
  | boot cached t ht =>
      refine ⟨length_takeLast _ 10, ?_, ht⟩
      exact histSorted_takeLast _ 10 (histSorted_sortEntriesByTime _)
  | live t t' h p hr hle ih =>
      rcases ih with ⟨il, is, it⟩
      have it' : ∀ e ∈ h, e.timestamp ≤ t' := fun e he => le_trans (it e he) hle
      cases hl : h.getLast? with
      | none =>
          rw [processPriceUpdate_of_getLast?_none hl]
          exact append_entry_invariant h t' p is it'
      | some last =>
          rw [processPriceUpdate_of_getLast?_some hl]
          by_cases heq : jsEq p last.price = true
          · rw [if_pos heq]
            exact ⟨il, is, it'⟩
          · rw [if_neg heq]
            exact append_entry_invariant h t' p is it'
  | wait t t' h hr hle ih =>
      exact ⟨ih.1, ih.2.1, fun e he => le_trans (ih.2.2 e he) hle⟩
  | wipe t h hr ih =>
      exact ⟨by simp, by simp [histSorted], by simp⟩

/-- C4: at every reachable state of a session the in-memory rolling price
history of every asset has at most 10 entries and is ordered ascending by
timestamp — both for a history rebuilt from the cache at startup and for one
extended by live updates at non-decreasing wall-clock times. -/
theorem rolling_history_bounded_and_sorted (a : String) (t : ℤ)
    (h : List HistEntry) (hr : HistReach a t h) :
    h.length ≤ 10 ∧ histSorted h :=
  ⟨(histReach_invariant hr).1, (histReach_invariant hr).2.1⟩

/-- Witness for C4: the history rebuilt from a two-sample cache (stored out
of timestamp order) at clock 5. -/
theorem rolling_history_bounded_and_sorted_witness :
    (rebuildHistoryFor [⟨"bitcoin", 3, 2⟩, ⟨"bitcoin", 4, 1⟩] "bitcoin").length ≤ 10
    ∧ histSorted (rebuildHistoryFor [⟨"bitcoin", 3, 2⟩, ⟨"bitcoin", 4, 1⟩] "bitcoin") :=
  rolling_history_bounded_and_sorted "bitcoin" 5 _
    (HistReach.boot [⟨"bitcoin", 3, 2⟩, ⟨"bitcoin", 4, 1⟩] 5 (by decide))

theorem length_takeLast_append {α : Type} (l : List α) (x : α) :
    (takeLast 10 (l ++ [x])).length = min (l.length + 1) 10 := by
  unfold takeLast
  rw [List.length_drop, List.length_append]
  simp only [List.length_singleton]
  omega

theorem getLast?_takeLast_append {α : Type} (l : List α) (x : α) :
    (takeLast 10 (l ++ [x])).getLast? = some x := by
  unfold takeLast
  have hle : (l ++ [x]).length - 10 ≤ l.length := by
    rw [List.length_append]
    simp only [List.length_singleton]
    omega
  rw [List.drop_append_of_le_length hle, List.getLast?_concat]

/-- C8: processing a live update whose parsed price strictly equals the last
recorded in-memory entry's price leaves the history unchanged; a differing
price — or an empty history — appends exactly one new entry stamped now (and
truncates to the last 10), so the history ends with the new entry and grows
to `min (length + 1) 10`. -/
theorem history_update_skip_or_append (h : List HistEntry) (now : ℤ) (p : JsNum) :
    (∀ e, h.getLast? = some e → jsEq p e.price = true →
      processPriceUpdate h now p = h)
    ∧ (h.getLast? = none →
        processPriceUpdate h now p = takeLast 10 (h ++ [{ timestamp := now, price := p }])
        ∧ (processPriceUpdate h now p).length = min (h.length + 1) 10
        ∧ (processPriceUpdate h now p).getLast? = some { timestamp := now, price := p })
    ∧ (∀ e, h.getLast? = some e → jsEq p e.price = false →
        processPriceUpdate h now p = takeLast 10 (h ++ [{ timestamp := now, price := p }])
        ∧ (processPriceUpdate h now p).length = min (h.length + 1) 10
        ∧ (processPriceUpdate h now p).getLast? = some { timestamp := now, price := p }) := by
  refine ⟨?_, ?_, ?_⟩
  · intro e he heq
    rw [processPriceUpdate_of_getLast?_some he, if_pos heq]
  · intro he
    rw [processPriceUpdate_of_getLast?_none he]
    exact ⟨rfl, length_takeLast_append h _, getLast?_takeLast_append h _⟩
  · intro e he heq
    have hne : ¬ jsEq p e.price = true := by rw [heq]; exact Bool.false_ne_true
    rw [processPriceUpdate_of_getLast?_some he, if_neg hne]
    exact ⟨rfl, length_takeLast_append h _, getLast?_takeLast_append h _⟩

/-- Witness for C8: re-delivering the price 5 on a history ending with price
5 leaves it unchanged; delivering it on an empty history appends one entry. -/
theorem history_update_skip_or_append_witness :
    processPriceUpdate [⟨1, JsNum.num 5⟩] 2 (JsNum.num 5) = [⟨1, JsNum.num 5⟩]
    ∧ processPriceUpdate [] 2 (JsNum.num 5)
        = takeLast 10 ([] ++ [{ timestamp := 2, price := JsNum.num 5 }]) :=
  ⟨(history_update_skip_or_append [⟨1, JsNum.num 5⟩] 2 (JsNum.num 5)).1
      ⟨1, JsNum.num 5⟩ (by decide) (by decide),
    ((history_update_skip_or_append [] 2 (JsNum.num 5)).2.1 (by decide)).1⟩

/-! ## Tracked assets, invalidation cleanup, and add-asset
(`src/components/CryptoList.tsx`, `src/components/AddCryptoModal.tsx`)

`useCryptoPrices` hard-codes the five default identifiers and appends the
custom ones (`useCryptoPrices.ts` lines 477-484); the effect is keyed on the
resulting URL, so the feed client resubscribes exactly when this identifier
list changes.  `CryptoList` reacts to an invalidation by deleting the cache
entry, removing a custom asset (or hiding a default one), and wiping the
history (lines 41-73). -/

structure Crypto where
  id : String
  name : String
  symbol : String
  price : ℚ
  change24h : ℚ
  marketCap : ℚ
  volume24h : ℚ
  description : String
  supply : ℚ
  rank : ℤ
deriving DecidableEq, Repr

/-- `defaultAssetIds` (`useCryptoPrices.ts` lines 477-483). -/
def defaultAssetIds : List String :=
  ["bitcoin", "ethereum", "binance-coin", "cardano", "solana"]

/-- `allAssetIds = [...defaultAssetIds, ...customAssetIds]`
(`useCryptoPrices.ts` line 484): the identifier list the WebSocket URL is
built from, hence the subscription list. -/
def allAssetIds (customIds : List String) : List String :=
  defaultAssetIds ++ customIds

/-- The `CryptoList` state the claims are about: the custom-crypto list, the
hidden-default set, the durable stores, and the per-asset history map. -/
structure ListState where
  customCryptos : List Crypto
  hiddenCryptos : List String
  cache : List CachedPrice
  customStore : List Crypto
  priceHistory : String → List HistEntry

/-- The identifier list the feed client subscribes to, derived from the
state: `customAssetIds = customCryptos.map(c => c.id)`
(`CryptoList.tsx` line 37) fed into `allAssetIds`. -/
def trackedIds (st : ListState) : List String :=
  allAssetIds (st.customCryptos.map (fun c => c.id))

/-- The invalid-asset cleanup for one identifier (`CryptoList.tsx` lines
41-73): delete its cached price; if it is a custom asset, delete it from the
custom store and the custom list, otherwise add it to the hidden set; wipe
its in-memory history. -/
def removeInvalidAsset (st : ListState) (assetId : String) : ListState :=
  let isCustom := st.customCryptos.any (fun c => c.id == assetId)
  { customCryptos :=
      if isCustom then st.customCryptos.filter (fun c => c.id != assetId)
      else st.customCryptos
    hiddenCryptos :=
      if isCustom then st.hiddenCryptos else insertUnique st.hiddenCryptos assetId
    cache := deletePrice st.cache assetId
    customStore :=
      if isCustom then st.customStore.filter (fun c => c.id != assetId)
      else st.customStore
    priceHistory := fun k => if k == assetId then [] else st.priceHistory k }

def emptyListState : ListState :=
  { customCryptos := [], hiddenCryptos := [], cache := [], customStore := [],
    priceHistory := fun _ => [] }

theorem samplesFor_deletePrice (c : List CachedPrice) (id : String) :
    samplesFor (deletePrice c id) id = [] := by
  induction c with
  | nil => rfl
  | cons r rs ih =>
      unfold deletePrice samplesFor
      unfold deletePrice samplesFor at ih
      rw [List.filter_cons]
      cases hr : (r.id == id)
      · simp only [bne, hr, Bool.not_false, if_true, List.filter_cons, hr,
          Bool.false_eq_true, if_false]
        exact ih
      · simp only [bne, hr, Bool.not_true, Bool.false_eq_true, if_false]
        exact ih

/-- C6 counterexample: invalidating the static-catalog asset `bitcoin` does
not remove it from the subscription list — the cleanup only hides it, the
custom identifier list is unchanged, so the tracked identifier list (and
hence the WebSocket URL) is identical and still contains `bitcoin`: no
resubscription happens at all and the claim is false for static-catalog
assets. -/
theorem invalidated_default_still_tracked :
    "bitcoin" ∈ trackedIds (removeInvalidAsset emptyListState "bitcoin")
    ∧ trackedIds (removeInvalidAsset emptyListState "bitcoin")
        = trackedIds emptyListState := by
  constructor
  · decide
  · decide

theorem not_mem_custom_after_remove (st : ListState) (assetId : String) :
    assetId ∉ ((removeInvalidAsset st assetId).customCryptos.map (fun c => c.id)) := by
  unfold removeInvalidAsset
  by_cases hc : st.customCryptos.any (fun c => c.id == assetId) = true
  · simp only [hc, if_true]
    intro hmem
    rcases List.mem_map.mp hmem with ⟨c, hcf, hid⟩
    have hkeep := List.of_mem_filter hcf
    rw [hid] at hkeep
    simp [bne] at hkeep
  · simp only [hc, Bool.false_eq_true, if_false]
    intro hmem
    rcases List.mem_map.mp hmem with ⟨c, hcm, hid⟩
    exact hc (List.any_eq_true.mpr ⟨c, hcm, by rw [hid]; exact beq_self_eq_true assetId⟩)

/-- C6 (amended): the cleanup changes the tracked identifier set only for
user-added assets.  For an invalidated identifier that is not one of the five
hard-coded defaults, the post-cleanup subscription list no longer contains it
(so the keyed effect resubscribes without it); for a default (static-catalog)
asset that is not in the custom list, the subscription list is unchanged —
the asset is merely hidden from display and remains subscribed.  In both
cases its cached samples and in-memory history are wiped. -/
theorem invalidation_changes_tracking_only_for_custom (st : ListState)
    (assetId : String) :
    (assetId ∉ defaultAssetIds →
      assetId ∉ trackedIds (removeInvalidAsset st assetId))
    ∧ (st.customCryptos.all (fun c => c.id != assetId) = true →
      trackedIds (removeInvalidAsset st assetId) = trackedIds st
      ∧ assetId ∈ (removeInvalidAsset st assetId).hiddenCryptos)
    ∧ (removeInvalidAsset st assetId).priceHistory assetId = []
    ∧ samplesFor ((removeInvalidAsset st assetId).cache) assetId = [] := by
  refine ⟨?_, ?_, ?_, ?_⟩
  · intro hdef
    unfold trackedIds allAssetIds
    rw [List.mem_append]
    rintro (h | h)
    · exact hdef h
    · exact not_mem_custom_after_remove st assetId h
  · intro hall
    have hc : st.customCryptos.any (fun c => c.id == assetId) = false := by
      rw [List.any_eq_false]
      intro c hcm
      have := List.all_eq_true.mp hall c hcm
      simpa [bne] using this
    constructor
    · unfold trackedIds allAssetIds removeInvalidAsset
      rw [hc]
      simp
    · unfold removeInvalidAsset
      rw [hc]
      simp only [Bool.false_eq_true, if_false]
      rw [mem_insertUnique]
      exact Or.inr rfl
  · unfold removeInvalidAsset
    simp
  · unfold removeInvalidAsset
    exact samplesFor_deletePrice st.cache assetId

def dogeCrypto : Crypto :=
  { id := "dogecoin", name := "Dogecoin", symbol := "DOGE", price := 1,
    change24h := 1, marketCap := 1, volume24h := 1, description := "doge",
    supply := 1, rank := 10 }

/-- Witness for C6 (amended): invalidating the user-added `dogecoin` removes
it from the subscription list. -/
theorem invalidation_changes_tracking_only_for_custom_witness :
    "dogecoin" ∉ trackedIds (removeInvalidAsset
      ⟨[dogeCrypto], [], [], [dogeCrypto], fun _ => []⟩ "dogecoin") :=
  (invalidation_changes_tracking_only_for_custom
    ⟨[dogeCrypto], [], [], [dogeCrypto], fun _ => []⟩ "dogecoin").1 (by decide)

/-! ## Add-asset flow (`src/components/AddCryptoModal.tsx` lines 86-122,
`src/components/CryptoList.tsx` lines 220-241) -/

/-- The shape of a catalog-search result (`useCryptoSearch.ts`), restricted
to the fields `handleSubmit` reads. -/
structure CoinCapAsset where
  id : String
  name : String
  symbol : String
  supply : String
  marketCapUsd : String
  volumeUsd24Hr : String
  priceUsd : String
deriving DecidableEq, Repr

/-- `parseFloat(x) || 0`: a falsy parse result (`NaN` or `0`) becomes `0`. -/
def jsNumOrZero : JsNum → ℚ
  | .nan => 0
  | .num q => q

/-- `Omit<Crypto, "price" | "change24h">`: the record `handleSubmit` passes
to `onAdd`. -/
structure NewCryptoData where
  id : String
  name : String
  symbol : String
  marketCap : ℚ
  volume24h : ℚ
  description : String
  supply : ℚ
  rank : ℤ
deriving DecidableEq, Repr

/-- `Math.max(...existingRanks, 0) + 1` (`AddCryptoModal.tsx` line 102). -/
def nextRank (ranks : List ℤ) : ℤ :=
  ranks.foldl max 0 + 1

/-- `handleSubmit` (`AddCryptoModal.tsx` lines 86-122): the only validation
is that a crypto has been selected; on success the new record is built from
the selected search result with the next rank and handed to `onAdd`. -/
def handleSubmit (selectedCrypto : Option CoinCapAsset) (existingRanks : List ℤ) :
    Option NewCryptoData :=
  match selectedCrypto with
  | none => none
  | some a =>
      some { id := a.id, name := a.name, symbol := a.symbol
             marketCap := jsNumOrZero (parseFloat a.marketCapUsd)
             volume24h := jsNumOrZero (parseFloat a.volumeUsd24Hr)
             description := "Criptomoeda " ++ a.name
             supply := jsNumOrZero (parseFloat a.supply)
             rank := nextRank existingRanks }

/-- The record `handleAddCrypto` builds: the submitted data with
`price := 0` and `change24h := 0` (`CryptoList.tsx` lines 223-227). -/
def toCrypto (nc : NewCryptoData) : Crypto :=
  { id := nc.id, name := nc.name, symbol := nc.symbol, price := 0,
    change24h := 0, marketCap := nc.marketCap, volume24h := nc.volume24h,
    description := nc.description, supply := nc.supply, rank := nc.rank }

/-- IndexedDB `put` on the `customCryptos` store (keyed by `id`):
`saveCustomCrypto` upserts by identifier. -/
def idbPutCrypto (store : List Crypto) (c : Crypto) : List Crypto :=
  if store.any (fun x => x.id == c.id) then
    store.map (fun x => if x.id == c.id then c else x)
  else store ++ [c]

/-- `handleAddCrypto` (`CryptoList.tsx` lines 220-241): persist via
`saveCustomCrypto` and append to the local custom list — with no duplicate
check (the catch path appends locally as well). -/
def handleAddCrypto (st : ListState) (nc : NewCryptoData) : ListState :=
  { st with
      customStore := idbPutCrypto st.customStore (toCrypto nc)
      customCryptos := st.customCryptos ++ [toCrypto nc] }

def btcSearchAsset : CoinCapAsset :=
  { id := "bitcoin", name := "Bitcoin", symbol := "BTC", supply := "19500000",
    marketCapUsd := "1316789234567", volumeUsd24Hr := "34567890123",
    priceUsd := "67234.50" }

/-- C7 counterexample: submitting a search result whose identifier `bitcoin`
already occurs in the tracked list is not rejected: `handleSubmit` returns
the new record (its only validation is that something is selected), and
adding it appends `bitcoin` a second time to the tracked identifier list and
grows the custom list. -/
theorem duplicate_add_not_rejected :
    "bitcoin" ∈ trackedIds emptyListState
    ∧ (handleSubmit (some btcSearchAsset) [1, 2, 3, 4, 5]).map
        (fun nc => trackedIds (handleAddCrypto emptyListState nc))
        = some (defaultAssetIds ++ ["bitcoin"])
    ∧ (handleSubmit (some btcSearchAsset) [1, 2, 3, 4, 5]).map
        (fun nc => (handleAddCrypto emptyListState nc).customCryptos.length)
        = some 1 := by
  refine ⟨by decide, rfl, rfl⟩

/-- C7 (amended): the add-asset flow validates only that an asset has been
selected — a duplicate identifier is not rejected.  Submission always
produces the record with rank `max(existing ranks, 0) + 1`; adding appends
the new crypto (price and change zeroed) to the custom list, upserts it by
identifier into the durable user-asset store, and extends the tracked
identifier list with the (possibly duplicate) identifier. -/
theorem add_asset_validates_only_selection (a : CoinCapAsset) (ranks : List ℤ)
    (st : ListState) (nc : NewCryptoData) :
    handleSubmit none ranks = none
    ∧ handleSubmit (some a) ranks
        = some { id := a.id, name := a.name, symbol := a.symbol
                 marketCap := jsNumOrZero (parseFloat a.marketCapUsd)
                 volume24h := jsNumOrZero (parseFloat a.volumeUsd24Hr)
                 description := "Criptomoeda " ++ a.name
                 supply := jsNumOrZero (parseFloat a.supply)
                 rank := nextRank ranks }
    ∧ (handleAddCrypto st nc).customCryptos = st.customCryptos ++ [toCrypto nc]
    ∧ (handleAddCrypto st nc).customStore = idbPutCrypto st.customStore (toCrypto nc)
    ∧ trackedIds (handleAddCrypto st nc) = trackedIds st ++ [nc.id] := by
  refine ⟨rfl, rfl, rfl, rfl, ?_⟩
  unfold trackedIds allAssetIds handleAddCrypto toCrypto
  simp [List.map_append, List.append_assoc]

/-! ## Merged per-asset view (`src/components/CryptoList.tsx` lines 186-218)

`updatedCryptoData` merges, per asset, the live feed string, the in-memory
history, the session-baseline price and the static catalog record.  All
selections are by JavaScript truthiness. -/

/-- `prices[crypto.id] ? parseFloat(prices[crypto.id]) : null`
(`CryptoList.tsx` lines 191-193): string truthiness first (the empty string
is falsy), then parse. -/
def realtimePriceOf (feedVal : Option String) : Option JsNum :=
  match feedVal with
  | some s => if s == "" then none else some (parseFloat s)
  | none => none

/-- `!realtimePrice && priceHistory[id]?.length > 0 ? lastEntry.price : null`
(`CryptoList.tsx` lines 196-198). -/
def lastHistoryPriceOf (realtimePrice : Option JsNum) (hist : List HistEntry) :
    Option JsNum :=
  if !(jsTruthy realtimePrice) && !(hist.isEmpty) then
    (hist.getLast?).map (fun e => e.price)
  else none

/-- The merged record for one asset (`CryptoList.tsx` lines 189-217):
`currentPrice = realtimePrice || lastHistoryPrice`; when truthy, the catalog
record's price is replaced and the change is recomputed against the truthy
session-baseline price if any; otherwise the static catalog record passes
through unchanged. -/
def mergeCrypto (c : Crypto) (feedVal : Option String) (hist : List HistEntry)
    (prevPrice : Option JsNum) : Crypto :=
  let realtimePrice := realtimePriceOf feedVal
  let lastHistoryPrice := lastHistoryPriceOf realtimePrice hist
  let currentPrice := if jsTruthy realtimePrice then realtimePrice else lastHistoryPrice
  match truthyVal currentPrice with
  | some q =>
      { c with
          price := q
          change24h :=
            match truthyVal prevPrice with
            | some pv => (q - pv) / pv * 100
            | none => c.change24h }
  | none => c

theorem realtimePriceOf_not_truthy {s : String}
    (hpf : parseFloat s = JsNum.nan ∨ parseFloat s = JsNum.num 0) :
    jsTruthy (realtimePriceOf (some s)) = false := by
  simp only [realtimePriceOf]
  by_cases hs : (s == "") = true
  · rw [if_pos hs]
    rfl
  · rw [if_neg hs]
    rcases hpf with h | h
    · rw [h]; rfl
    · rw [h]
      simp [jsTruthy, truthyNum]

theorem getLast?_ne_nil {α : Type} {l : List α} {a : α}
    (h : l.getLast? = some a) : l ≠ [] := by
  intro hnil
  rw [hnil] at h
  cases h

/-- C10: a live feed value whose parsed price is `0` or `NaN` is treated as
absent by the merge: `currentPrice` falls back to the most recent in-memory
history price when that is truthy, and when the history is empty or its last
price is itself `0` or `NaN`, the static catalog record (with its price) is
returned unchanged — because the merge selects by numeric truthiness, not by
presence. -/
theorem merge_unparsable_or_zero_feed_falls_back (c : Crypto) (s : String)
    (hist : List HistEntry) (prev : Option JsNum)
    (hpf : parseFloat s = JsNum.nan ∨ parseFloat s = JsNum.num 0) :
    (∀ e q, hist.getLast? = some e → e.price = JsNum.num q → ¬ q = 0 →
      (mergeCrypto c (some s) hist prev).price = q)
    ∧ (hist = [] → mergeCrypto c (some s) hist prev = c)
    ∧ (∀ e, hist.getLast? = some e → truthyNum e.price = false →
        mergeCrypto c (some s) hist prev = c) := by
  have hrt : jsTruthy (realtimePriceOf (some s)) = false :=
    realtimePriceOf_not_truthy hpf
  refine ⟨?_, ?_, ?_⟩
  · intro e q he hq hq0
    simp only [mergeCrypto, lastHistoryPriceOf]
    rw [hrt, he]
    have hne : hist.isEmpty = false := by
      cases hist
      · exact absurd he (by simp)
      · rfl
    simp [hne, hq, truthyVal, hq0]
  · intro hnil
    subst hnil
    simp only [mergeCrypto, lastHistoryPriceOf]
    rw [hrt]
    simp [truthyVal]
  · intro e he hunt
    simp only [mergeCrypto, lastHistoryPriceOf]
    rw [hrt, he]
    have hne : hist.isEmpty = false := by
      cases hist
      · exact absurd he (by simp)
      · rfl
    cases hp : e.price with
    | nan => simp [hne, hp, truthyVal]
    | num q =>
        rw [hp] at hunt
        simp only [truthyNum, bne_eq_false_iff_eq] at hunt
        simp [hne, hp, hunt, truthyVal]

def demoCrypto : Crypto :=
  { id := "bitcoin", name := "Bitcoin", symbol := "BTC", price := 1,
    change24h := 2, marketCap := 3, volume24h := 4, description := "btc",
    supply := 5, rank := 1 }

/-- Witness for C10: an unparsable feed value with a truthy last history
price 7 yields the history price. -/
theorem merge_unparsable_or_zero_feed_falls_back_witness :
    (mergeCrypto demoCrypto (some "abc") [⟨1, JsNum.num 7⟩] none).price = 7 :=
  (merge_unparsable_or_zero_feed_falls_back demoCrypto "abc"
      [⟨1, JsNum.num 7⟩] none (Or.inl (by decide))).1
    ⟨1, JsNum.num 7⟩ 7 rfl rfl (by decide)

end CriptoCap
